import Mathlib

/-!
Verification of the core blockchain logic of `bl_gui.py`.

The file embeds, as executable Lean definitions:
* SHA-256 (as used via Python's `hashlib.sha256(...).hexdigest()`),
* Python's UTF-8 `str.encode()` and the `str(...)` rendering of the
  block dictionary produced by `Block.to_dict`,
* the `Blockchain` class: `create_block`, `hash`, `add_transaction`,
  `proof_of_work`, `valid_proof`, and the GUI mining entry point
  `mine_block_gui`,
and then proves the specified properties about them.

Python floats (the `time.time()` timestamp and transaction amounts) are
modelled by the text `repr` Python would interpolate into the serialized
dictionary; integers are modelled by `Nat`/`Int`.  Exceptions (indexing an
empty chain) are modelled by `Option`.
-/

set_option maxRecDepth 100000

namespace SHA256

/-- Truncation to a 32-bit word. -/
def w32 (x : Nat) : Nat := x % 4294967296

/-- 32-bit right rotation. -/
def rotr (n x : Nat) : Nat := w32 ((x >>> n) ||| (x <<< (32 - n)))

def bigSigma0 (x : Nat) : Nat := rotr 2 x ^^^ rotr 13 x ^^^ rotr 22 x

def bigSigma1 (x : Nat) : Nat := rotr 6 x ^^^ rotr 11 x ^^^ rotr 25 x

def smallSigma0 (x : Nat) : Nat := rotr 7 x ^^^ rotr 18 x ^^^ (x >>> 3)

def smallSigma1 (x : Nat) : Nat := rotr 17 x ^^^ rotr 19 x ^^^ (x >>> 10)

def ch (x y z : Nat) : Nat := (x &&& y) ^^^ ((x ^^^ 4294967295) &&& z)

def maj (x y z : Nat) : Nat := (x &&& y) ^^^ (x &&& z) ^^^ (y &&& z)

/-- The 64 SHA-256 round constants (FIPS 180-4, written in decimal). -/
def roundK : List Nat :=
  [1116352408, 1899447441, 3049323471, 3921009573, 961987163, 1508970993,
   2453635748, 2870763221, 3624381080, 310598401, 607225278, 1426881987,
   1925078388, 2162078206, 2614888103, 3248222580, 3835390401, 4022224774,
   264347078, 604807628, 770255983, 1249150122, 1555081692, 1996064986,
   2554220882, 2821834349, 2952996808, 3210313671, 3336571891, 3584528711,
   113926993, 338241895, 666307205, 773529912, 1294757372, 1396182291,
   1695183700, 1986661051, 2177026350, 2456956037, 2730485921, 2820302411,
   3259730800, 3345764771, 3516065817, 3600352804, 4094571909, 275423344,
   430227734, 506948616, 659060556, 883997877, 958139571, 1322822218,
   1537002063, 1747873779, 1955562222, 2024104815, 2227730452, 2361852424,
   2428436474, 2756734187, 3204031479, 3329325298]

/-- The eight working variables of the compression function. -/
structure Digest where
  a : Nat
  b : Nat
  c : Nat
  d : Nat
  e : Nat
  f : Nat
  g : Nat
  hh : Nat

/-- The SHA-256 initial hash value (FIPS 180-4, written in decimal). -/
def initH : Digest :=
  ⟨1779033703, 3144134277, 1013904242, 2773480762,
   1359893119, 2600822924, 528734635, 1541459225⟩

/-- Message-schedule extension: `acc` holds the schedule so far in reverse
order (most recent word first); `n` more words are produced. -/
def extendLoop : Nat → List Nat → List Nat
  | 0, acc => acc.reverse
  | n + 1, acc =>
      extendLoop n
        (w32 (smallSigma1 (acc.getD 1 0) + acc.getD 6 0 +
              smallSigma0 (acc.getD 14 0) + acc.getD 15 0) :: acc)

/-- Extend a 16-word chunk to the full 64-word message schedule. -/
def extendWords (ws : List Nat) : List Nat := extendLoop 48 ws.reverse

/-- The 64 compression rounds, consuming (schedule word, round constant)
pairs. -/
def rounds : Digest → List (Nat × Nat) → Digest
  | s, [] => s
  | s, (w, k) :: rest =>
      rounds
        ⟨w32 (w32 (s.hh + bigSigma1 s.e + ch s.e s.f s.g + k + w) +
              w32 (bigSigma0 s.a + maj s.a s.b s.c)),
         s.a, s.b, s.c,
         w32 (s.d + w32 (s.hh + bigSigma1 s.e + ch s.e s.f s.g + k + w)),
         s.e, s.f, s.g⟩ rest

/-- Process one 16-word chunk. -/
def compressChunk (s : Digest) (ws : List Nat) : Digest :=
  let r := rounds s ((extendWords ws).zip roundK)
  ⟨w32 (s.a + r.a), w32 (s.b + r.b), w32 (s.c + r.c), w32 (s.d + r.d),
   w32 (s.e + r.e), w32 (s.f + r.f), w32 (s.g + r.g), w32 (s.hh + r.hh)⟩

/-- Process a word list 16 words at a time; `fuel` bounds the number of
chunks (any `fuel ≥` the chunk count gives the same result). -/
def processWords : Nat → Digest → List Nat → Digest
  | 0, s, _ => s
  | _ + 1, s, [] => s
  | fuel + 1, s, w :: rest =>
      processWords fuel (compressChunk s ((w :: rest).take 16)) ((w :: rest).drop 16)

/-- Big-endian packing of bytes into 32-bit words. -/
def toWords : List Nat → List Nat
  | b0 :: b1 :: b2 :: b3 :: rest =>
      (((b0 * 256 + b1) * 256 + b2) * 256 + b3) :: toWords rest
  | _ => []

/-- The 8-byte big-endian encoding of the bit length of an `L`-byte
message. -/
def lenBytes (L : Nat) : List Nat :=
  (List.range 8).map (fun i => ((8 * L) >>> (56 - 8 * i)) % 256)

/-- SHA-256 padding: a 0x80 byte, zeros to 56 mod 64, then the bit
length. -/
def padMsg (msg : List Nat) : List Nat :=
  msg ++ 128 :: List.replicate ((119 - msg.length % 64) % 64) 0 ++ lenBytes msg.length

def hexChar (n : Nat) : Char :=
  if n < 10 then Char.ofNat (48 + n) else Char.ofNat (87 + n)

/-- Lowercase hexadecimal rendering of one 32-bit word. -/
def wordHexChars (x : Nat) : List Char :=
  (List.range 8).map (fun i => hexChar ((x >>> (28 - 4 * i)) &&& 15))

/-- SHA-256 of a byte list, as the 64-character lowercase hex digest
(Python's `hashlib.sha256(bytes).hexdigest()`). -/
def sha256hex (msg : List Nat) : String :=
  let ws := toWords (padMsg msg)
  let s := processWords ws.length initH ws
  String.mk (wordHexChars s.a ++ wordHexChars s.b ++ wordHexChars s.c ++
             wordHexChars s.d ++ wordHexChars s.e ++ wordHexChars s.f ++
             wordHexChars s.g ++ wordHexChars s.hh)

/-- UTF-8 encoding of one character (Python `str.encode()`). -/
def utf8Bytes (c : Char) : List Nat :=
  let n := c.toNat
  if n < 128 then [n]
  else if n < 2048 then [192 + n / 64, 128 + n % 64]
  else if n < 65536 then [224 + n / 4096, 128 + (n / 64) % 64, 128 + n % 64]
  else [240 + n / 262144, 128 + (n / 4096) % 64, 128 + (n / 64) % 64, 128 + n % 64]

/-- UTF-8 encoding of a string (Python `str.encode()`). -/
def strBytes (s : String) : List Nat := (s.data.map utf8Bytes).flatten

end SHA256

/-- SHA-256 hex digest of the UTF-8 encoding of a string. -/
def sha256hexString (s : String) : String := SHA256.sha256hex (SHA256.strBytes s)

/-! ## Python value model

Transaction amounts are Python numbers: the GUI submits `float` values and
the mining reward is the `int` literal `1`.  A float is carried as the text
its `repr` produces (floating point itself is out of scope; only the
serialized text feeds the hash).  Block timestamps (`time.time()` floats)
are likewise carried as their `repr` text, supplied as an explicit input
`ts` to each operation that reads the clock. -/

inductive PyNum where
  | int (n : Int)
  | float (text : String)
deriving DecidableEq

/-- The text Python interpolates for a number inside `str(dict)`. -/
def pyNumRepr : PyNum → String
  | .int n => toString n
  | .float t => t

def squote : Char := Char.ofNat 39

def dquote : Char := Char.ofNat 34

/-- Escaping of one character inside a Python string `repr` delimited by
quote character `q`. -/
def pyEscapeChar (q c : Char) : List Char :=
  if c = Char.ofNat 92 then [Char.ofNat 92, Char.ofNat 92]
  else if c = q then [Char.ofNat 92, q]
  else if c = Char.ofNat 10 then [Char.ofNat 92, Char.ofNat 110]
  else if c = Char.ofNat 13 then [Char.ofNat 92, Char.ofNat 114]
  else if c = Char.ofNat 9 then [Char.ofNat 92, Char.ofNat 116]
  else [c]

/-- Python `repr` of a `str`: single-quoted, switching to double quotes
when the text contains a single quote but no double quote. -/
def pyStrRepr (s : String) : String :=
  let q := if s.data.contains squote && !(s.data.contains dquote) then dquote else squote
  String.mk (q :: (s.data.map (pyEscapeChar q)).flatten ++ [q])

/-- A dictionary key as rendered by `str(dict)`: `'key': `. -/
def pyKey (k : String) : String :=
  String.mk [squote] ++ k ++ String.mk [squote] ++ ": "

/-- Python `str` of a list, elements rendered by `f`. -/
def pyListRepr (f : α → String) (l : List α) : String :=
  "[" ++ String.intercalate ", " (l.map f) ++ "]"

/-! ## The data model of `bl_gui.py` -/

/-- A pending transaction: the dict
`\x7b"sender": ..., "recipient": ..., "amount": ...\x7d` built by
`Blockchain.add_transaction`. -/
structure Transaction where
  sender : String
  recipient : String
  amount : PyNum
deriving DecidableEq

/-- `str` of a transaction dict (insertion order: sender, recipient,
amount). -/
def txRepr (t : Transaction) : String :=
  "\x7b" ++ pyKey "sender" ++ pyStrRepr t.sender ++ ", " ++
  pyKey "recipient" ++ pyStrRepr t.recipient ++ ", " ++
  pyKey "amount" ++ pyNumRepr t.amount ++ "\x7d"

/-- The `Block` class: index, timestamp, transactions, proof,
previous_hash. -/
structure Block where
  index : Nat
  timestamp : String
  transactions : List Transaction
  proof : Nat
  previous_hash : String
deriving DecidableEq

/-- `str(block.to_dict())`: the canonical serialization hashed by
`Blockchain.hash` (fixed field order from `Block.to_dict`). -/
def Block.reprDict (b : Block) : String :=
  "\x7b" ++ pyKey "index" ++ toString b.index ++ ", " ++
  pyKey "timestamp" ++ b.timestamp ++ ", " ++
  pyKey "transactions" ++ pyListRepr txRepr b.transactions ++ ", " ++
  pyKey "proof" ++ toString b.proof ++ ", " ++
  pyKey "previous_hash" ++ pyStrRepr b.previous_hash ++ "\x7d"

/-- The `Blockchain` class state: the chain and the pending-transaction
queue. -/
structure Blockchain where
  chain : List Block
  pending_transactions : List Transaction
deriving DecidableEq

/-- `Blockchain.hash`: SHA-256 hex digest of `str(block.to_dict()).encode()`. -/
def Blockchain.hash (block : Block) : String :=
  sha256hexString (Block.reprDict block)

/-- Python `x or y` on an optional string: `None` and `""` are falsy.  The
fallback is itself optional so that an unavailable fallback
(`self.chain[-1]` on an empty chain, an `IndexError`) propagates. -/
def pyOrString (v : Option String) (fallback : Option String) : Option String :=
  match v with
  | some s => if s = "" then fallback else some s
  | none => fallback

/-- `Blockchain.create_block`: builds the block from the current chain
length, clock, pending queue, supplied proof and (truthy) previous_hash or
the hash of the last block; appends it and clears the queue.  `none`
models the `IndexError` of `self.chain[-1]` on an empty chain. -/
def Blockchain.create_block (bc : Blockchain) (ts : String) (proof : Nat)
    (previous_hash : Option String) : Option (Block × Blockchain) :=
  match pyOrString previous_hash (bc.chain.getLast?.map Blockchain.hash) with
  | none => none
  | some ph =>
      let block : Block :=
        ⟨bc.chain.length + 1, ts, bc.pending_transactions, proof, ph⟩
      some (block, ⟨bc.chain ++ [block], []⟩)

/-- `Blockchain.__init__`: empty chain and queue, then the genesis call
`create_block(proof=1, previous_hash="0")`. -/
def Blockchain.init (ts : String) : Blockchain :=
  match (Blockchain.mk [] []).create_block ts 1 (some "0") with
  | some (_, bc) => bc
  | none => ⟨[], []⟩

/-- `Blockchain.add_transaction`: appends the transaction dict to the
pending queue and returns `self.last_block.index + 1`.  `none` models the
`IndexError` of `last_block` on an empty chain. -/
def Blockchain.add_transaction (bc : Blockchain) (sender recipient : String)
    (amount : PyNum) : Option (Nat × Blockchain) :=
  let transaction : Transaction := ⟨sender, recipient, amount⟩
  match bc.chain.getLast? with
  | none => none
  | some last =>
      some (last.index + 1, ⟨bc.chain, bc.pending_transactions ++ [transaction]⟩)

/-- `Blockchain.last_block`: `self.chain[-1]`. -/
def Blockchain.last_block (bc : Blockchain) : Option Block :=
  bc.chain.getLast?

/-- `Blockchain.valid_proof`: SHA-256 of the concatenated decimal strings
`f"\x7blast_proof\x7d\x7bproof\x7d"`, accepted iff the digest starts with
four `"0"` characters. -/
def Blockchain.valid_proof (last_proof proof : Nat) : Bool :=
  let guess := toString last_proof ++ toString proof
  let guess_hash := sha256hexString guess
  guess_hash.take 4 == "0000"

/-- `Blockchain.proof_of_work`: the while loop `proof = 0; while not
valid_proof(last_proof, proof): proof += 1; return proof`, i.e. the least
accepted candidate.  The loop terminates exactly when an accepted
candidate exists, so that hypothesis is taken as an argument. -/
def Blockchain.proof_of_work (last_proof : Nat)
    (h : ∃ p, Blockchain.valid_proof last_proof p = true) : Nat :=
  Nat.find h

/-- The mining callback `mine_block_gui`, after the proof search:
`add_transaction(sender="0", recipient="miner_address", amount=1)` then
`create_block(proof)`.  The searched `proof` is passed in (the `Step.mine`
relation ties it to `proof_of_work(last_block.proof)`). -/
def mine_block_gui (bc : Blockchain) (ts : String) (proof : Nat) :
    Option (Block × Blockchain) :=
  match bc.add_transaction "0" "miner_address" (PyNum.int 1) with
  | none => none
  | some (_, bc1) => bc1.create_block ts proof none

/-- The mining reward transaction appended by `mine_block_gui`. -/
def rewardTx : Transaction := ⟨"0", "miner_address", PyNum.int 1⟩

/-! ## Reachable ledger states

`Step` is one GUI-level operation on the shared ledger: a transaction
submission or a mining click.  `StepS` additionally allows a bare
`create_block` (seal) call with arbitrary arguments. -/

inductive Step : Blockchain → Blockchain → Prop where
  | submit {bc bc' : Blockchain} (sender recipient : String) (amount : PyNum)
      (n : Nat)
      (hadd : bc.add_transaction sender recipient amount = some (n, bc')) :
      Step bc bc'
  | mine {bc bc' : Blockchain} (ts : String) (last : Block)
      (hlast : bc.chain.getLast? = some last)
      (hex : ∃ p, Blockchain.valid_proof last.proof p = true)
      (b : Block)
      (hmine : mine_block_gui bc ts (Blockchain.proof_of_work last.proof hex) =
        some (b, bc')) :
      Step bc bc'

inductive StepS : Blockchain → Blockchain → Prop where
  | submit {bc bc' : Blockchain} (sender recipient : String) (amount : PyNum)
      (n : Nat)
      (hadd : bc.add_transaction sender recipient amount = some (n, bc')) :
      StepS bc bc'
  | mine {bc bc' : Blockchain} (ts : String) (last : Block)
      (hlast : bc.chain.getLast? = some last)
      (hex : ∃ p, Blockchain.valid_proof last.proof p = true)
      (b : Block)
      (hmine : mine_block_gui bc ts (Blockchain.proof_of_work last.proof hex) =
        some (b, bc')) :
      StepS bc bc'
  | seal_block {bc bc' : Blockchain} (ts : String) (proof : Nat)
      (previous_hash : Option String) (b : Block)
      (hseal : bc.create_block ts proof previous_hash = some (b, bc')) :
      StepS bc bc'

/-- States reachable from a freshly constructed `Blockchain` by
submit/mine operations. -/
def Reachable (bc : Blockchain) : Prop :=
  ∃ ts, Relation.ReflTransGen Step (Blockchain.init ts) bc

/-- States reachable from a freshly constructed `Blockchain` by
submit/mine/seal operations. -/
def ReachableS (bc : Blockchain) : Prop :=
  ∃ ts, Relation.ReflTransGen StepS (Blockchain.init ts) bc

/-! ## Characterizations of the operations -/

/-- The fresh ledger state, explicitly. -/
theorem init_eq (ts : String) :
    Blockchain.init ts = ⟨[⟨1, ts, [], 1, "0"⟩], []⟩ := rfl

theorem add_transaction_eq (bc : Blockchain) (s r : String) (a : PyNum)
    (n : Nat) (bc' : Blockchain)
    (h : bc.add_transaction s r a = some (n, bc')) :
    ∃ last, bc.chain.getLast? = some last ∧ n = last.index + 1 ∧
      bc' = ⟨bc.chain, bc.pending_transactions ++ [⟨s, r, a⟩]⟩ := by
  unfold Blockchain.add_transaction at h
  cases hlast : bc.chain.getLast? with
  | none => rw [hlast] at h; simp at h
  | some last =>
      rw [hlast] at h
      simp only [Option.some.injEq, Prod.mk.injEq] at h
      exact ⟨last, rfl, h.1.symm, h.2.symm⟩

theorem create_block_eq (bc : Blockchain) (ts : String) (proof : Nat)
    (previous_hash : Option String) (b : Block) (bc' : Blockchain)
    (h : bc.create_block ts proof previous_hash = some (b, bc')) :
    b.index = bc.chain.length + 1 ∧ b.timestamp = ts ∧
    b.transactions = bc.pending_transactions ∧ b.proof = proof ∧
    bc' = ⟨bc.chain ++ [b], []⟩ := by
  unfold Blockchain.create_block at h
  cases hph : pyOrString previous_hash (bc.chain.getLast?.map Blockchain.hash) with
  | none => rw [hph] at h; simp at h
  | some ph =>
      rw [hph] at h
      simp only [Option.some.injEq, Prod.mk.injEq] at h
      obtain ⟨hb, hbc⟩ := h
      subst hb
      exact ⟨rfl, rfl, rfl, rfl, hbc.symm⟩

theorem create_block_none_eq (bc : Blockchain) (ts : String) (proof : Nat)
    (b : Block) (bc' : Blockchain)
    (h : bc.create_block ts proof none = some (b, bc')) :
    ∃ last, bc.chain.getLast? = some last ∧
      b = ⟨bc.chain.length + 1, ts, bc.pending_transactions, proof,
           Blockchain.hash last⟩ ∧
      bc' = ⟨bc.chain ++ [b], []⟩ := by
  unfold Blockchain.create_block pyOrString at h
  cases hlast : bc.chain.getLast? with
  | none => rw [hlast] at h; simp at h
  | some last =>
      rw [hlast] at h
      simp only [Option.map_some', Option.some.injEq, Prod.mk.injEq] at h
      obtain ⟨hb, hbc⟩ := h
      exact ⟨last, rfl, hb.symm, by rw [← hbc, hb]⟩

theorem mine_block_gui_eq (bc : Blockchain) (ts : String) (p : Nat)
    (b : Block) (bc' : Blockchain)
    (h : mine_block_gui bc ts p = some (b, bc')) :
    ∃ last, bc.chain.getLast? = some last ∧
      b = ⟨bc.chain.length + 1, ts, bc.pending_transactions ++ [rewardTx], p,
           Blockchain.hash last⟩ ∧
      bc' = ⟨bc.chain ++ [b], []⟩ := by
  unfold mine_block_gui at h
  cases hadd : bc.add_transaction "0" "miner_address" (PyNum.int 1) with
  | none => rw [hadd] at h; simp at h
  | some nb =>
      obtain ⟨n1, bc1⟩ := nb
      rw [hadd] at h
      simp only at h
      obtain ⟨last0, hlast0, _, hbc1⟩ := add_transaction_eq _ _ _ _ _ _ hadd
      subst hbc1
      obtain ⟨last, hlast, hb, hbc'⟩ := create_block_none_eq _ _ _ _ _ h
      simp only at hlast hb hbc'
      have hl : last = last0 := by
        rw [hlast0] at hlast
        injection hlast with hx
        exact hx.symm
      rw [hl] at hb
      exact ⟨last0, hlast0, hb, hbc'⟩

/-! ## Chain invariants -/

/-- Adjacent hash linking: the later block records the hash of the
earlier one. -/
def hashLink (a b : Block) : Prop := b.previous_hash = Blockchain.hash a

/-- Adjacent proof linking: the later block's proof is accepted relative
to the earlier one's. -/
def proofLink (a b : Block) : Prop :=
  Blockchain.valid_proof a.proof b.proof = true

/-- The blocks of `l` carry consecutive indices starting at `k`. -/
def indicesFrom : Nat → List Block → Prop
  | _, [] => True
  | k, b :: rest => b.index = k ∧ indicesFrom (k + 1) rest

theorem indicesFrom_append (k : Nat) (l : List Block) (b : Block) :
    indicesFrom k (l ++ [b]) ↔ indicesFrom k l ∧ b.index = k + l.length := by
  induction l generalizing k with
  | nil => simp [indicesFrom]
  | cons a t ih =>
      show (a.index = k ∧ indicesFrom (k + 1) (t ++ [b])) ↔
        (a.index = k ∧ indicesFrom (k + 1) t) ∧ b.index = k + (a :: t).length
      rw [ih (k + 1)]
      simp only [List.length_cons]
      constructor
      · rintro ⟨h1, h2, h3⟩; exact ⟨⟨h1, h2⟩, by omega⟩
      · rintro ⟨⟨h1, h2⟩, h3⟩; exact ⟨h1, h2, by omega⟩

theorem indicesFrom_get (k : Nat) (l : List Block) (h : indicesFrom k l) :
    ∀ i (hi : i < l.length), (l.get ⟨i, hi⟩).index = k + i := by
  induction l generalizing k with
  | nil => intro i hi; simp at hi
  | cons a t ih =>
      intro i hi
      cases i with
      | zero => simpa using h.1
      | succ j =>
          have hj : j < t.length := by simpa using hi
          have := ih (k + 1) h.2 j hj
          simpa [Nat.add_assoc, Nat.add_comm 1 j] using this

theorem chain'_concat_of_getLast (R : Block → Block → Prop) (l : List Block)
    (last b : Block) (hl : List.Chain' R l) (hlast : l.getLast? = some last)
    (hR : R last b) : List.Chain' R (l ++ [b]) := by
  rw [List.chain'_append]
  refine ⟨hl, List.chain'_singleton b, ?_⟩
  intro x hx y hy
  rw [hlast] at hx
  simp only [Option.mem_def, Option.some.injEq] at hx
  simp only [List.head?_cons, Option.mem_def, Option.some.injEq] at hy
  subst hx; subst hy
  exact hR

/-- The invariant needed for submit/mine/seal reachability. -/
def InvS (bc : Blockchain) : Prop :=
  bc.chain ≠ [] ∧ indicesFrom 1 bc.chain

/-- The invariant needed for submit/mine reachability. -/
def InvSM (bc : Blockchain) : Prop :=
  InvS bc ∧ List.Chain' hashLink bc.chain ∧ List.Chain' proofLink bc.chain

theorem invSM_init (ts : String) : InvSM (Blockchain.init ts) := by
  refine ⟨⟨by simp [init_eq], ?_⟩, ?_, ?_⟩ <;>
    simp [init_eq, indicesFrom]

theorem stepS_invS (bc bc' : Blockchain) (h : StepS bc bc') (hinv : InvS bc) :
    InvS bc' := by
  obtain ⟨hne, hidx⟩ := hinv
  cases h with
  | submit s r a n hadd =>
      obtain ⟨last, _, _, hbc'⟩ := add_transaction_eq _ _ _ _ _ _ hadd
      rw [hbc']
      exact ⟨hne, hidx⟩
  | mine ts last hlast hex b hmine =>
      obtain ⟨last', _, hb, hbc'⟩ := mine_block_gui_eq _ _ _ _ _ hmine
      rw [hbc']
      refine ⟨by simp, ?_⟩
      rw [indicesFrom_append]
      exact ⟨hidx, by rw [hb]; simp [Nat.add_comm]⟩
  | seal_block ts proof previous_hash b hseal =>
      obtain ⟨hbi, _, _, _, hbc'⟩ := create_block_eq _ _ _ _ _ _ hseal
      rw [hbc']
      refine ⟨by simp, ?_⟩
      rw [indicesFrom_append]
      exact ⟨hidx, by rw [hbi]; omega⟩

theorem step_stepS (bc bc' : Blockchain) (h : Step bc bc') : StepS bc bc' := by
  cases h with
  | submit s r a n hadd => exact StepS.submit s r a n hadd
  | mine ts last hlast hex b hmine => exact StepS.mine ts last hlast hex b hmine

theorem step_chain'_hashLink (bc bc' : Blockchain) (h : Step bc bc')
    (hh : List.Chain' hashLink bc.chain) : List.Chain' hashLink bc'.chain := by
  cases h with
  | submit s r a n hadd =>
      obtain ⟨last, _, _, hbc'⟩ := add_transaction_eq _ _ _ _ _ _ hadd
      rw [hbc']
      exact hh
  | mine ts last hlast hex b hmine =>
      obtain ⟨last', hlast', hb, hbc'⟩ := mine_block_gui_eq _ _ _ _ _ hmine
      obtain rfl : last = last' := by rw [hlast] at hlast'; injection hlast'
      rw [hbc']
      exact chain'_concat_of_getLast _ _ _ _ hh hlast (by rw [hb]; rfl)

theorem step_chain'_proofLink (bc bc' : Blockchain) (h : Step bc bc')
    (hp : List.Chain' proofLink bc.chain) : List.Chain' proofLink bc'.chain := by
  cases h with
  | submit s r a n hadd =>
      obtain ⟨last, _, _, hbc'⟩ := add_transaction_eq _ _ _ _ _ _ hadd
      rw [hbc']
      exact hp
  | mine ts last hlast hex b hmine =>
      obtain ⟨last', hlast', hb, hbc'⟩ := mine_block_gui_eq _ _ _ _ _ hmine
      obtain rfl : last = last' := by rw [hlast] at hlast'; injection hlast'
      rw [hbc']
      refine chain'_concat_of_getLast _ _ _ _ hp hlast ?_
      rw [hb]
      exact Nat.find_spec hex

theorem step_invSM (bc bc' : Blockchain) (h : Step bc bc') (hinv : InvSM bc) :
    InvSM bc' :=
  ⟨stepS_invS bc bc' (step_stepS bc bc' h) hinv.1,
   step_chain'_hashLink bc bc' h hinv.2.1,
   step_chain'_proofLink bc bc' h hinv.2.2⟩

theorem reachable_invSM (bc : Blockchain) (h : Reachable bc) : InvSM bc := by
  obtain ⟨ts, hr⟩ := h
  induction hr with
  | refl => exact invSM_init ts
  | tail hsteps hstep ih => exact step_invSM _ _ hstep ih

theorem reachableS_invS (bc : Blockchain) (h : ReachableS bc) : InvS bc := by
  obtain ⟨ts, hr⟩ := h
  induction hr with
  | refl => exact (invSM_init ts).1
  | tail hsteps hstep ih => exact stepS_invS _ _ hstep ih

theorem stepS_chain_append (bc bc' : Blockchain) (h : StepS bc bc') :
    ∃ t, bc'.chain = bc.chain ++ t := by
  cases h with
  | submit s r a n hadd =>
      obtain ⟨last, _, _, hbc'⟩ := add_transaction_eq _ _ _ _ _ _ hadd
      exact ⟨[], by rw [hbc']; simp⟩
  | mine ts last hlast hex b hmine =>
      obtain ⟨last', _, _, hbc'⟩ := mine_block_gui_eq _ _ _ _ _ hmine
      exact ⟨[b], by rw [hbc']⟩
  | seal_block ts proof previous_hash b hseal =>
      obtain ⟨_, _, _, _, hbc'⟩ := create_block_eq _ _ _ _ _ _ hseal
      exact ⟨[b], by rw [hbc']⟩

/-! ## Success lemmas (operations on a non-empty chain) -/

theorem add_transaction_some (bc : Blockchain) (s r : String) (a : PyNum)
    (last : Block) (hlast : bc.chain.getLast? = some last) :
    bc.add_transaction s r a =
      some (last.index + 1,
        ⟨bc.chain, bc.pending_transactions ++ [⟨s, r, a⟩]⟩) := by
  unfold Blockchain.add_transaction
  rw [hlast]

theorem create_block_none_some (bc : Blockchain) (ts : String) (proof : Nat)
    (last : Block) (hlast : bc.chain.getLast? = some last) :
    bc.create_block ts proof none =
      some (⟨bc.chain.length + 1, ts, bc.pending_transactions, proof,
             Blockchain.hash last⟩,
            ⟨bc.chain ++ [⟨bc.chain.length + 1, ts, bc.pending_transactions,
              proof, Blockchain.hash last⟩], []⟩) := by
  unfold Blockchain.create_block pyOrString
  rw [hlast]
  rfl

/-- The genesis block produced by `Blockchain.__init__` at clock reading
`ts`. -/
def genesisBlock (ts : String) : Block := ⟨1, ts, [], 1, "0"⟩

/-- Standard test vector: `sha256("abc")`. -/
theorem sha256_abc :
    sha256hexString "abc" =
      "ba7816bf8f01cfea414140de5dae2223b00361a396177a9cb410ff61f20015ad" := by
  decide

/-- Standard test vector: `sha256("")`. -/
theorem sha256_empty :
    sha256hexString "" =
      "e3b0c44298fc1c149afbf4c8996fb92427ae41e4649b934ca495991b7852b855" := by
  decide

theorem indicesFrom_map_range' (k : Nat) (l : List Block)
    (h : indicesFrom k l) : l.map Block.index = List.range' k l.length := by
  induction l generalizing k with
  | nil => rfl
  | cons a t ih =>
      simp only [List.map_cons, List.length_cons, List.range'_succ]
      rw [h.1, ih (k + 1) h.2]

/-- A concrete accepted proof-of-work candidate for seed 1 (the proof of
the genesis block): `sha256("172608")` starts with `"0000"`. -/
theorem valid_proof_exists_one : ∃ p, Blockchain.valid_proof 1 p = true :=
  ⟨72608, by decide⟩

/-! ## The claims -/

/-- C1 — Hash chaining: in every ledger state reachable from a freshly
constructed `Blockchain` by any sequence of submit/mine operations, every
adjacent pair of blocks `(B[i], B[i+1])` of the chain satisfies
`B[i+1].previous_hash = Blockchain.hash B[i]` (stated as `List.Chain'` of
that adjacent-pair relation over the chain). -/
theorem hash_chaining (bc : Blockchain) (h : Reachable bc) :
    List.Chain' (fun x y => y.previous_hash = Blockchain.hash x) bc.chain :=
  (reachable_invSM bc h).2.1

theorem hash_chaining_witness :
    List.Chain' (fun x y => y.previous_hash = Blockchain.hash x)
      (Blockchain.init "1700.5").chain :=
  hash_chaining _ ⟨"1700.5", Relation.ReflTransGen.refl⟩

/-- C3 — Proof validity: in every ledger state reachable from a freshly
constructed `Blockchain` where all blocks after genesis were added via the
mining operation (i.e. by submit/mine sequences), every adjacent pair of
blocks satisfies `valid_proof(B[i-1].proof, B[i].proof)` (stated as
`List.Chain'` of that adjacent-pair relation over the chain). -/
theorem proof_validity (bc : Blockchain) (h : Reachable bc) :
    List.Chain' (fun x y => Blockchain.valid_proof x.proof y.proof = true)
      bc.chain :=
  (reachable_invSM bc h).2.2

theorem proof_validity_witness :
    List.Chain' (fun x y => Blockchain.valid_proof x.proof y.proof = true)
      (Blockchain.init "1700.5").chain :=
  proof_validity _ ⟨"1700.5", Relation.ReflTransGen.refl⟩

/-- C2 — Difficulty contract: for every non-negative seed `X` for which
some accepted candidate exists, `proof_of_work X` returns the smallest
candidate `c` with `valid_proof X c`; in particular
`valid_proof X (proof_of_work X)` holds. -/
theorem proof_of_work_correct (X : Nat)
    (h : ∃ p, Blockchain.valid_proof X p = true) :
    Blockchain.valid_proof X (Blockchain.proof_of_work X h) = true ∧
    ∀ c, c < Blockchain.proof_of_work X h →
      Blockchain.valid_proof X c = false := by
  refine ⟨Nat.find_spec h, ?_⟩
  intro c hc
  have := Nat.find_min h hc
  simpa using this

theorem proof_of_work_correct_witness :
    Blockchain.valid_proof 1 (Blockchain.proof_of_work 1 valid_proof_exists_one) =
      true :=
  (proof_of_work_correct 1 valid_proof_exists_one).1

/-- C4 — Queue transfer: whenever the mining operation runs on a ledger
with a non-empty chain, it succeeds, the sealed block's transaction list
is exactly the pending queue before the call followed by the reward
transaction `\x7bsender: "0", recipient: "miner_address", amount: 1\x7d`
and nothing else, and the pending queue afterwards is empty. -/
theorem mine_queue_transfer (bc : Blockchain) (ts : String) (last : Block)
    (hlast : bc.chain.getLast? = some last)
    (hex : ∃ p, Blockchain.valid_proof last.proof p = true) :
    ∃ b bc',
      mine_block_gui bc ts (Blockchain.proof_of_work last.proof hex) =
        some (b, bc') ∧
      b.transactions = bc.pending_transactions ++ [rewardTx] ∧
      bc'.pending_transactions = [] := by
  have h1 := add_transaction_some bc "0" "miner_address" (PyNum.int 1) last hlast
  have h2 := create_block_none_some
    ⟨bc.chain, bc.pending_transactions ++ [rewardTx]⟩ ts
    (Blockchain.proof_of_work last.proof hex) last hlast
  refine ⟨⟨bc.chain.length + 1, ts, bc.pending_transactions ++ [rewardTx],
           Blockchain.proof_of_work last.proof hex, Blockchain.hash last⟩,
          ⟨bc.chain ++ [⟨bc.chain.length + 1, ts,
            bc.pending_transactions ++ [rewardTx],
            Blockchain.proof_of_work last.proof hex, Blockchain.hash last⟩],
           []⟩, ?_, rfl, rfl⟩
  unfold mine_block_gui
  rw [h1]
  exact h2

theorem mine_queue_transfer_witness :
    ∃ b bc',
      mine_block_gui (Blockchain.init "1700.5") "1701.0"
          (Blockchain.proof_of_work (genesisBlock "1700.5").proof
            valid_proof_exists_one) =
        some (b, bc') ∧
      b.transactions =
        (Blockchain.init "1700.5").pending_transactions ++ [rewardTx] ∧
      bc'.pending_transactions = [] :=
  mine_queue_transfer (Blockchain.init "1700.5") "1701.0" (genesisBlock "1700.5")
    rfl valid_proof_exists_one

/-- C5 counterexample — the claim says `add_transaction` returns the
current last block's index + 2; on a fresh ledger the last block has index
1 and the call returns 2, not 3. -/
theorem submission_return_counterexample :
    ((Blockchain.init "t").add_transaction "Alice" "Bob"
        (PyNum.float "10.0")).map Prod.fst = some 2 ∧
    (Blockchain.init "t").chain.getLast?.map Block.index = some 1 ∧
    (2 : Nat) ≠ 1 + 2 := by
  decide

/-- C5 (amended) — Submission return value: for every ledger state with a
non-empty chain, `add_transaction(sender, recipient, amount)` appends
exactly one transaction to the pending queue and returns the current last
block's index + 1 (the index of the next block to be sealed, the "block
this will land in"). -/
theorem submission_return_value (bc : Blockchain) (s r : String) (a : PyNum)
    (last : Block) (hlast : bc.chain.getLast? = some last) :
    bc.add_transaction s r a =
      some (last.index + 1,
        ⟨bc.chain, bc.pending_transactions ++ [⟨s, r, a⟩]⟩) := by
  unfold Blockchain.add_transaction
  rw [hlast]

theorem submission_return_value_witness :
    (Blockchain.init "t").add_transaction "Alice" "Bob" (PyNum.float "10.0") =
      some ((genesisBlock "t").index + 1,
        ⟨(Blockchain.init "t").chain,
         (Blockchain.init "t").pending_transactions ++
           [⟨"Alice", "Bob", PyNum.float "10.0"⟩]⟩) :=
  submission_return_value _ _ _ _ _ rfl

/-- C6 — Genesis invariant: a freshly constructed `Blockchain` has a chain
of exactly one block, whose previous_hash is `"0"`, index is 1 and proof
is 1, and an empty pending queue. -/
theorem genesis_invariant (ts : String) :
    (Blockchain.init ts).chain = [⟨1, ts, [], 1, "0"⟩] ∧
    (Blockchain.init ts).chain.length = 1 ∧
    (Blockchain.init ts).chain.head?.map Block.previous_hash = some "0" ∧
    (Blockchain.init ts).chain.head?.map Block.index = some 1 ∧
    (Blockchain.init ts).chain.head?.map Block.proof = some 1 ∧
    (Blockchain.init ts).pending_transactions = [] :=
  ⟨rfl, rfl, rfl, rfl, rfl, rfl⟩

/-- C7 — Monotonic indices: in every ledger state reachable from a freshly
constructed `Blockchain` by any sequence of submit/mine/seal operations,
the chain is non-empty and the indices along the chain are exactly
1, 2, ..., n (each block's index is its 1-based position), regardless of
the pending queue at each seal. -/
theorem monotonic_indices (bc : Blockchain) (h : ReachableS bc) :
    bc.chain ≠ [] ∧
    bc.chain.map Block.index = List.range' 1 bc.chain.length := by
  obtain ⟨hne, hidx⟩ := reachableS_invS bc h
  exact ⟨hne, indicesFrom_map_range' 1 bc.chain hidx⟩

theorem monotonic_indices_witness :
    (Blockchain.init "1700.5").chain ≠ [] ∧
    (Blockchain.init "1700.5").chain.map Block.index =
      List.range' 1 (Blockchain.init "1700.5").chain.length :=
  monotonic_indices _ ⟨"1700.5", Relation.ReflTransGen.refl⟩

/-- C8 — Sealed-block stability: once a block has been sealed, any later
sequence of submit/mine/seal operations can only append blocks after it:
the earlier chain is left in place unchanged (every sealed block keeps all
its fields, including its transaction list). -/
theorem sealed_blocks_stable (bc bc' : Blockchain)
    (h : Relation.ReflTransGen StepS bc bc') :
    ∃ t, bc'.chain = bc.chain ++ t := by
  induction h with
  | refl => exact ⟨[], by simp⟩
  | tail hsteps hstep ih =>
      obtain ⟨t1, ht1⟩ := ih
      obtain ⟨t2, ht2⟩ := stepS_chain_append _ _ hstep
      exact ⟨t1 ++ t2, by rw [ht2, ht1, List.append_assoc]⟩

theorem sealed_blocks_stable_witness :
    ∃ t, (Blockchain.mk [genesisBlock "t"]
        [⟨"Alice", "Bob", PyNum.float "10.0"⟩]).chain =
      (Blockchain.init "t").chain ++ t :=
  sealed_blocks_stable _ _ (Relation.ReflTransGen.single
    (StepS.submit "Alice" "Bob" (PyNum.float "10.0") 2 (by decide)))

/-- C9 — Hash determinism: `Blockchain.hash` is a pure function of the
five block fields: two blocks agreeing on index, timestamp, transactions,
proof and previous_hash receive identical digests (and in particular two
calls on the same block agree). -/
theorem hash_deterministic (b1 b2 : Block)
    (h1 : b1.index = b2.index) (h2 : b1.timestamp = b2.timestamp)
    (h3 : b1.transactions = b2.transactions) (h4 : b1.proof = b2.proof)
    (h5 : b1.previous_hash = b2.previous_hash) :
    Blockchain.hash b1 = Blockchain.hash b2 := by
  obtain ⟨i1, t1, x1, p1, v1⟩ := b1
  obtain ⟨i2, t2, x2, p2, v2⟩ := b2
  simp only at h1 h2 h3 h4 h5
  subst h1; subst h2; subst h3; subst h4; subst h5
  rfl

theorem hash_deterministic_witness :
    Blockchain.hash (genesisBlock "t") = Blockchain.hash (genesisBlock "t") :=
  hash_deterministic _ _ rfl rfl rfl rfl rfl

/-- C10 — Falsy-string edge case: on a ledger with a non-empty chain,
`create_block(proof, previous_hash="")` behaves exactly like passing no
previous_hash: the sealed block's previous_hash is the hash of the current
last block, not the empty string, because the implementation selects the
default with a truthiness test (`previous_hash or self.hash(...)`). -/
theorem create_block_empty_string (bc : Blockchain) (ts : String)
    (proof : Nat) (last : Block) (hlast : bc.chain.getLast? = some last) :
    bc.create_block ts proof (some "") = bc.create_block ts proof none ∧
    ∃ b bc', bc.create_block ts proof (some "") = some (b, bc') ∧
      b.previous_hash = Blockchain.hash last := by
  constructor
  · rfl
  · exact ⟨_, _, create_block_none_some bc ts proof last hlast, rfl⟩

theorem create_block_empty_string_witness :
    (Blockchain.init "t").create_block "u" 7 (some "") =
      (Blockchain.init "t").create_block "u" 7 none ∧
    ∃ b bc', (Blockchain.init "t").create_block "u" 7 (some "") =
      some (b, bc') ∧
      b.previous_hash = Blockchain.hash (genesisBlock "t") :=
  create_block_empty_string _ _ _ _ rfl
